import Mathlib

/-!
Shallow embedding of the CLAMBA synthesis core (clamba/utils/sanitizer.py,
clamba/utils/graph.py, clamba/core/process_detector.py, clamba/models/process.py,
clamba/models/contract.py, clamba/core/analyzer.py) and proofs about it.

Strings are modelled as `List Char` inside the sanitizer and the bracket
extractor, and as Lean `String` elsewhere.  Python dicts are modelled as
association lists in insertion order.
-/

/-- Interface to the external Unicode operations used by `IDSanitizer.sanitize`
(`unicodedata.normalize('NFD', ·)`, `unicodedata.category(·) == 'Mn'`,
`str.lower`), modelled per character. -/
structure Uni where
  nfd : Char → List Char
  isMn : Char → Bool
  lower : Char → Char

/-- The character class `[a-z0-9]` of the sanitizer's regexes. -/
def isAlnumL (c : Char) : Bool :=
  (97 ≤ c.toNat && c.toNat ≤ 122) || (48 ≤ c.toNat && c.toNat ≤ 57)

/-- Step 1 of `IDSanitizer.sanitize`: NFD-normalize and drop combining marks
(category `Mn`). -/
def normalizeStrip (u : Uni) (l : List Char) : List Char :=
  (l.flatMap u.nfd).filter (fun c => !(u.isMn c))

/-- Step 2 of `IDSanitizer.sanitize`: lower-case. -/
def lowerAll (u : Uni) (l : List Char) : List Char :=
  l.map u.lower

/-- Step 3 of `IDSanitizer.sanitize`: `re.sub(r'[^a-z0-9]+', '-', text)` —
every maximal run of characters outside `[a-z0-9]` becomes one hyphen. -/
def subSpecial : List Char → List Char
  | [] => []
  | c :: rest =>
    if isAlnumL c then c :: subSpecial rest
    else if rest.head?.all isAlnumL then '-' :: subSpecial rest
    else subSpecial rest

/-- Step 4 of `IDSanitizer.sanitize`: `re.sub(r'-+', '-', text)`. -/
def collapseHyphens : List Char → List Char
  | [] => []
  | c :: rest =>
    if c = '-' ∧ rest.head? = some '-' then collapseHyphens rest
    else c :: collapseHyphens rest

/-- Python's `str.rstrip('-')`: remove the maximal trailing run of hyphens. -/
def rstripHyphen : List Char → List Char
  | [] => []
  | c :: rest =>
    let r := rstripHyphen rest
    if r = [] ∧ c = '-' then [] else c :: r

/-- Python's `str.strip('-')` (step 4's trim): hyphens removed at both ends. -/
def stripHyphens (l : List Char) : List Char :=
  rstripHyphen (l.dropWhile (fun c => c = '-'))

/-- Step 5 of `IDSanitizer.sanitize`: `text[:max_length].rstrip('-')`,
applied only when the text exceeds `max_length`. -/
def truncateId (m : Nat) (l : List Char) : List Char :=
  if l.length > m then rstripHyphen (l.take m) else l

/-- Steps 1-5 of `IDSanitizer.sanitize` in order: normalize, lower-case,
replace special runs, collapse and trim hyphens, truncate. -/
def sanitizeCore (u : Uni) (m : Nat) (text : List Char) : List Char :=
  truncateId m (stripHyphens (collapseHyphens (subSpecial
    (lowerAll u (normalizeStrip u text)))))

/-- `IDSanitizer.sanitize` over `List Char`; `m` is the sanitizer's
`max_length` (the constructor default is 50).  Empty input short-circuits to
`"default_id"`; an empty pipeline result falls back to `"sanitized-id"`. -/
def sanitizeL (u : Uni) (m : Nat) (text : List Char) : List Char :=
  if text = [] then "default_id".toList
  else if sanitizeCore u m text = [] then "sanitized-id".toList
  else sanitizeCore u m text

/-- `IDSanitizer.sanitize` over `String`. -/
def sanitizeStr (u : Uni) (m : Nat) (s : String) : String :=
  ⟨sanitizeL u m s.toList⟩

/-- `IDSanitizer.sanitize_step_name`: sanitize after replacing underscores
with spaces. -/
def sanitize_step_name (u : Uni) (m : Nat) (s : String) : String :=
  sanitizeStr u m ⟨s.toList.map (fun c => if c = '_' then ' ' else c)⟩

/-- A concrete instance of the Unicode interface that is the identity on the
ASCII identifier alphabet, used to evaluate the embedding on concrete inputs. -/
def asciiUni : Uni :=
  { nfd := fun c => [c], isMn := fun _ => false, lower := Char.toLower }

example : sanitizeL asciiUni 50 "Reception  & Controle!!".toList
    = "reception-controle".toList := by decide
example : sanitizeL asciiUni 50 [] = "default_id".toList := by decide
example : sanitizeL asciiUni 50 "default_id".toList = "default-id".toList := by decide
example : sanitizeL asciiUni 50 "!!!".toList = "sanitized-id".toList := by decide
example : sanitizeL asciiUni 3 "abcd-ef".toList = "abc".toList := by decide

/-! ## Graph utilities (`clamba/utils/graph.py`)

A Python `Dict[str, List[str]]` is modelled as an association list in
insertion order. -/

/-- Dependency graph: `Dict[str, List[str]]` mapping nodes to dependencies. -/
abbrev Graph : Type := List (String × List String)

/-- `graph.get(node, [])`. -/
def adjOf (g : Graph) (n : String) : List String :=
  (List.lookup n g).getD []

/-- Size bound used as recursion fuel for the DFS of `has_cycles`: the DFS
visits each node once and scans each adjacency entry once, so the depth of the
call tree is below this bound.  On fuel exhaustion (never reached from
`has_cycles`) the embedding conservatively reports a cycle. -/
def graphFuel (g : Graph) : Nat :=
  2 * (g.length + (g.map (fun kv => kv.2.length)).sum) + 4

/-- The inner loop of `has_cycles.dfs`: process the remaining neighbours `ns`
of the node on top of the recursion stack `S`, threading the shared `visited`
set `V`.  A visited neighbour on the active path means a cycle; an unvisited
neighbour is explored recursively (the Python `dfs(node, …)` body is the call
with `ns := adjOf g n`, `V := n :: V`, `S := n :: S`). -/
def dfsList (g : Graph) : Nat → List String → List String → List String →
    List String × Bool
  | 0, _, V, _ => (V, true)
  | _ + 1, [], V, _ => (V, false)
  | fuel + 1, n :: rest, V, S =>
    if n ∈ V then
      if n ∈ S then (V, true) else dfsList g fuel rest V S
    else
      match dfsList g fuel (adjOf g n) (n :: V) (n :: S) with
      | (V2, true) => (V2, true)
      | (V2, false) => dfsList g fuel rest V2 S

/-- The outer loop of `has_cycles`: start a DFS with a fresh recursion stack
from every not-yet-visited key. -/
def hasCyclesAux (g : Graph) : Nat → List String → List String → Bool
  | 0, _, _ => true
  | _ + 1, [], _ => false
  | fuel + 1, k :: ks, V =>
    if k ∈ V then hasCyclesAux g fuel ks V
    else
      match dfsList g fuel (adjOf g k) (k :: V) [k] with
      | (_, true) => true
      | (V2, false) => hasCyclesAux g fuel ks V2

/-- `has_cycles`: DFS-based cycle check over the dependency graph. -/
def has_cycles (g : Graph) : Bool :=
  hasCyclesAux g (graphFuel g) (g.map Prod.fst) []

/-- `temp_graph[node].append(dep)` on a copy of the graph. -/
def addEdge (g : Graph) (n dep : String) : Graph :=
  g.map (fun kv => if kv.1 = n then (kv.1, kv.2 ++ [dep]) else kv)

/-- `remove_cycles`: rebuild the graph edge by edge over the same node set,
keeping an edge only when adding it does not create a cycle. -/
def remove_cycles (g : Graph) : Graph :=
  let init : Graph := g.map (fun kv => (kv.1, ([] : List String)))
  g.foldl (fun clean kv =>
    kv.2.foldl (fun clean dep =>
      let temp := addEdge clean kv.1 dep
      if has_cycles temp then clean else temp) clean) init

/-- `in_degree[dep] += 1` guarded by `if dep in in_degree`. -/
def bumpUp (m : List (String × Int)) (k : String) : List (String × Int) :=
  m.map (fun kv => if kv.1 = k then (kv.1, kv.2 + 1) else kv)

/-- `in_degree[other_node] -= 1`. -/
def bumpDown (m : List (String × Int)) (k : String) : List (String × Int) :=
  m.map (fun kv => if kv.1 = k then (kv.1, kv.2 - 1) else kv)

/-- One pass of the inner `for other_node, deps in graph.items()` loop of
`topological_sort`, after popping `node`: decrement the in-degree of every
key whose dependency list contains `node`, queueing keys that reach zero. -/
def kahnStep (g : Graph) (node : String)
    (st : List (String × Int) × List String) : List (String × Int) × List String :=
  g.foldl (fun acc kv =>
    if node ∈ kv.2 then
      let d := bumpDown acc.1 kv.1
      if List.lookup kv.1 d = some 0 then (d, acc.2 ++ [kv.1]) else (d, acc.2)
    else acc) st

/-- The `while queue:` loop of `topological_sort`.  Each key enters the queue
at most once, so `g.length + 1` fuel is enough for the loop to drain. -/
def kahnLoop (g : Graph) : Nat → List (String × Int) → List String →
    List String → List String
  | 0, _, _, result => result
  | _ + 1, _, [], result => result
  | fuel + 1, in_degree, node :: rest, result =>
    let st := kahnStep g node (in_degree, rest)
    kahnLoop g fuel st.1 st.2 (result ++ [node])

/-- `topological_sort`: raises `ValueError` on a graph with cycles, else runs
Kahn's algorithm (in-degree counts plus a FIFO ready queue). -/
def topological_sort (g : Graph) : Except String (List String) :=
  if has_cycles g then
    Except.error "Cannot perform topological sort on graph with cycles"
  else
    let in_degree0 : List (String × Int) := g.map (fun kv => (kv.1, 0))
    let in_degree := g.foldl (fun m kv => kv.2.foldl bumpUp m) in_degree0
    let queue := (in_degree.filter (fun kv => kv.2 = 0)).map Prod.fst
    Except.ok (kahnLoop g (g.length + 1) in_degree queue [])

example : has_cycles [("a", ["a"])] = true := by decide
example : has_cycles [("a", ["b"]), ("b", ["a"])] = true := by decide
example : has_cycles [("b", ["a"]), ("a", [])] = false := by decide
example : has_cycles [("A", ["B"]), ("B", []), ("C", ["A"])] = false := by decide
example : topological_sort [("b", ["a"]), ("a", [])] = Except.ok ["b"] := by rfl
example : topological_sort [("A", []), ("B", ["A"]), ("C", ["B"])]
    = Except.ok ["C"] := by rfl
example : remove_cycles [("01", ["02"]), ("02", ["01"])]
    = [("01", ["02"]), ("02", [])] := by decide

/-! ## Response parsing (`clamba/core/process_detector.py`) -/

/-- The scan of `_extract_json_array` / `_extract_json_object` from the first
opening bracket on: track the bracket depth and return the span once the
depth returns to zero on a closing bracket; `none` if it never does. -/
def extractAux (op cl : Char) : List Char → Int → Option (List Char)
  | [], _ => none
  | c :: rest, depth =>
    let depth2 := if c = op then depth + 1 else if c = cl then depth - 1 else depth
    if c = cl ∧ depth2 = 0 then some [c]
    else (extractAux op cl rest depth2).map (fun t => c :: t)

/-- Balanced-span extraction: find the first opening bracket, then scan.
`_extract_json_array` is `extractBalanced '[' ']'`, `_extract_json_object`
is `extractBalanced '\x7b' '\x7d'`. -/
def extractBalanced (op cl : Char) (s : List Char) : Option (List Char) :=
  let t := s.dropWhile (fun c => c ≠ op)
  if t.isEmpty then none else extractAux op cl t 0

/-- `ProcessDetector._extract_json_object`. -/
def extract_json_object (s : List Char) : Option (List Char) :=
  extractBalanced '{' '}' s

/-- `ProcessDetector._extract_json_array`. -/
def extract_json_array (s : List Char) : Option (List Char) :=
  extractBalanced '[' ']' s

example : extract_json_object "xx \x7b a \x7b b \x7d c \x7d yy \x7b".toList
    = some "\x7b a \x7b b \x7d c \x7d".toList := by decide
example : extract_json_object "no braces at all".toList = none := by decide
example : extract_json_object "\x7b never closed".toList = none := by decide
example : extract_json_array "text [1, [2]] more".toList
    = some "[1, [2]]".toList := by decide

/-- Model of `json.loads` output for the dependency response: either a dict
whose values are lists of strings (the shape the dependency prompt requests),
or anything else (`isinstance(deps_data, dict)` fails). -/
inductive PyDeps where
  | dict (entries : List (String × List String))
  | other
deriving DecidableEq

/-- The business-process record (`clamba/models/process.py`, class `Process`).
Only the fields the verified claims refer to are modelled; the inferred
classification tag, priority, detailed steps and other metadata are omitted. -/
structure Process where
  id : String
  name : String
  description : String
  steps : List String
  responsible_party : String
  triggers : String
deriving DecidableEq

/-- One element of the decoded JSON array of the process-detection response:
either not a JSON object (`isinstance(item, dict)` fails) or an object with
the optional fields `from_ai_response` reads.  Step lists are modelled as
lists of strings, the shape the detection prompt requests. -/
inductive RawItem where
  | nondict
  | record (id name description : Option String) (steps : Option (List String))
      (responsible_party triggers : Option String)
deriving DecidableEq

/-- `Process.from_ai_response` followed by pydantic validation of the `steps`
field (`Process.validate_steps`): a raised `ValidationError` is modelled as
`Except.error` carrying the validator's message. -/
def Process.from_ai_response (id name description : Option String)
    (steps : Option (List String)) (responsible_party triggers : Option String) :
    Except String Process :=
  let st := steps.getD []
  if st = [] then Except.error "Process must have at least one step"
  else if st.length > 10 then Except.error "Process cannot have more than 10 steps"
  else Except.ok
    { id := id.getD "unknown"
      name := name.getD "Unknown Process"
      description := description.getD ""
      steps := st
      responsible_party := responsible_party.getD ""
      triggers := triggers.getD "" }

/-- The record-building loop of `_parse_processes_response`: non-dict items
and items missing one of `id`, `name`, `steps` are skipped with a warning;
a validation error raised while building a `Process` is not caught (only
`json.JSONDecodeError` is) and aborts the whole parse. -/
def buildProcesses : List RawItem → Except String (List Process)
  | [] => Except.ok []
  | RawItem.nondict :: rest => buildProcesses rest
  | RawItem.record id name description steps rp tr :: rest =>
    if id.isSome ∧ name.isSome ∧ steps.isSome then
      match Process.from_ai_response id name description steps rp tr with
      | Except.error e => Except.error e
      | Except.ok p => (buildProcesses rest).map (fun l => p :: l)
    else buildProcesses rest

/-- `ProcessDetector._parse_processes_response`, with `json.loads` abstracted
as the parameter `dec` (`none` models a `json.JSONDecodeError`): no JSON
array span or a decode failure degrades to the empty process list; a
validation error raised inside the loop propagates. -/
def parse_processes_response (dec : List Char → Option (List RawItem))
    (response : List Char) : Except String (List Process) :=
  match extract_json_array response with
  | none => Except.ok []
  | some span =>
    match dec span with
    | none => Except.ok []
    | some items => buildProcesses items

/-- The dict branch of `ProcessDetector._parse_dependencies_response`: one
entry per known process id, looked up in the decoded dict (absent id gives
the empty list) and filtered to known, non-self ids.  The Python iteration
over the set `{p.id for p in processes}` is modelled as iteration over the
distinct ids. -/
def validDepsOfDict (d : List (String × List String))
    (processes : List Process) : List (String × List String) :=
  (processes.map Process.id).dedup.map (fun pid =>
    match List.lookup pid d with
    | some deps => (pid, deps.filter (fun dep =>
        dep ∈ (processes.map Process.id).dedup ∧ dep ≠ pid))
    | none => (pid, []))

/-- `ProcessDetector._parse_dependencies_response`, with `json.loads`
abstracted as the parameter `dec` (`none` models a `json.JSONDecodeError`):
no JSON object span, a decode failure or a non-dict decode result all return
the empty map; otherwise the filtered per-id map of `validDepsOfDict`. -/
def parse_dependencies_response (dec : List Char → Option PyDeps)
    (response : List Char) (processes : List Process) :
    List (String × List String) :=
  match extract_json_object response with
  | none => []
  | some span =>
    match dec span with
    | none => []
    | some PyDeps.other => []
    | some (PyDeps.dict d) => validDepsOfDict d processes

/-! ## Automaton synthesis (`clamba/utils/sanitizer.py`,
`clamba/models/contract.py`, `clamba/core/analyzer.py`)

`State` keeps the fields the claims refer to; the 2-D layout position, the
display label and the connection-anchor fields are omitted. -/

/-- Automaton state (`clamba/models/contract.py`, class `State`). -/
structure State where
  id : String
  type : String := "default"
deriving DecidableEq

/-- Automaton transition (`clamba/models/contract.py`, class `Transition`). -/
structure Transition where
  id : String
  source : String
  target : String
  label : String
  conditions : List String := []
  automata_dependencies : List String := []
deriving DecidableEq

/-- `'-'` to `'_'` replacement used for transition labels. -/
def underscored (s : String) : String :=
  ⟨s.toList.map (fun c => if c = '-' then '_' else c)⟩

/-- `create_states_from_steps`: the synthetic initial state, one state per
step with id derived from the sanitized step label, and the synthetic
completed state. -/
def mkStepState (u : Uni) (m : Nat) (step : String) : State :=
  { id := "state-" ++ sanitize_step_name u m step, type := "default" }

def create_states_from_steps (u : Uni) (m : Nat) (steps : List String) :
    List State :=
  { id := "state-initial", type := "default" } ::
    (steps.map (mkStepState u m)
    ++ [{ id := "state-completed", type := "default" }])

/-- The initial transition of `create_transitions_from_steps`: it alone
carries the sanitized dependency ids. -/
def mkInitialTransition (u : Uni) (m : Nat) (s0 : String)
    (dependencies : List String) : Transition :=
  let fs := sanitize_step_name u m s0
  { id := "edge-initial-to-" ++ fs
    source := "state-initial"
    target := "state-" ++ fs
    label := "initial_to_" ++ underscored fs
    conditions := []
    automata_dependencies := dependencies.map (sanitizeStr u m) }

/-- A between-steps transition of `create_transitions_from_steps`. -/
def mkMidTransition (u : Uni) (m : Nat) (a b : String) : Transition :=
  let ca := sanitize_step_name u m a
  let cb := sanitize_step_name u m b
  { id := "edge-" ++ ca ++ "-to-" ++ cb
    source := "state-" ++ ca
    target := "state-" ++ cb
    label := underscored ca ++ "_to_" ++ underscored cb
    conditions := []
    automata_dependencies := [] }

/-- The final transition of `create_transitions_from_steps`. -/
def mkFinalTransition (u : Uni) (m : Nat) (sl : String) : Transition :=
  let cl := sanitize_step_name u m sl
  { id := "edge-" ++ cl ++ "-to-completed"
    source := "state-" ++ cl
    target := "state-completed"
    label := underscored cl ++ "_to_completed"
    conditions := []
    automata_dependencies := [] }

/-- `create_transitions_from_steps`: empty for no steps, else the initial
transition, one transition per consecutive step pair (`range(len(steps)-1)`
is the zip of `steps` with its tail), and the final transition. -/
def create_transitions_from_steps (u : Uni) (m : Nat)
    (steps dependencies : List String) : List Transition :=
  match steps with
  | [] => []
  | s0 :: rest =>
    mkInitialTransition u m s0 dependencies ::
      ((steps.zip rest).map (fun ab => mkMidTransition u m ab.1 ab.2)
      ++ [mkFinalTransition u m ((s0 :: rest).getLastD s0)])

/-- Automaton (`clamba/models/contract.py`, class `Automate`); execution
metadata is omitted. -/
structure Automate where
  id : String
  name : String
  active : Bool
  states : List State
  transitions : List Transition
  automata_dependencies : List String
deriving DecidableEq

/-- `Automate.from_process`. -/
def Automate.from_process (u : Uni) (m : Nat) (p : Process)
    (dependencies : List String) : Automate :=
  { id := sanitizeStr u m p.id
    name := p.name
    active := false
    states := create_states_from_steps u m p.steps
    transitions := create_transitions_from_steps u m p.steps dependencies
    automata_dependencies := dependencies.map (sanitizeStr u m) }

/-- Contract (`clamba/models/contract.py`, class `Contract`); only the
automaton list matters to the claims — ids, timestamps and status are
omitted. -/
structure Contract where
  automates : List Automate
deriving DecidableEq

/-- The automaton-assembly loop of `CLAMBAAnalyzer._generate_automatons`:
one automaton per process, with the dependency list
`dependencies.get(process.id, [])`, using a fresh `IDSanitizer()` whose
`max_length` default is 50.  Note a defect of the source: the function's
first statement `from ..models.automate import Automate`
(analyzer.py, line 185) names a module that does not exist —
`clamba/models/automate.py` is absent and the `Automate` class lives in
`clamba/models/contract.py`, from which `clamba/models/__init__.py`
re-exports it — so every actual call raises `ModuleNotFoundError` before
this loop runs.  The definition embeds the loop with the import resolved to
the real `Automate.from_process`, the behavior the function was evidently
written to have. -/
def generate_automatons (u : Uni) (processes : List Process)
    (dependencies : List (String × List String)) : Contract :=
  { automates := processes.map (fun p =>
      Automate.from_process u 50 p ((List.lookup p.id dependencies).getD [])) }

/-- `Contract.validate_dependencies`: one error message per dependency id
that is not the id of an automaton of the same contract. -/
def Contract.validate_dependencies (c : Contract) : List String :=
  let automate_ids := c.automates.map Automate.id
  c.automates.foldr (fun a errs =>
    ((a.automata_dependencies.filter (fun dep => ¬ dep ∈ automate_ids)).map
      (fun dep => "Automate " ++ a.id ++ " depends on unknown automate: " ++ dep))
    ++ errs) []

/-! ## Derived predicates used to state the claims -/

/-- A raw item passes the structural check of `_parse_processes_response`:
it is a dict and has the required keys `id`, `name`, `steps`. -/
def RawItem.structValid : RawItem → Prop
  | RawItem.nondict => False
  | RawItem.record id name _ steps _ _ => id.isSome ∧ name.isSome ∧ steps.isSome

instance : DecidablePred RawItem.structValid := fun it =>
  match it with
  | RawItem.nondict => isFalse (fun h => h)
  | RawItem.record id name _ steps _ _ =>
    inferInstanceAs (Decidable (id.isSome ∧ name.isSome ∧ steps.isSome))

/-- A raw item whose step list would also pass `Process.validate_steps`
(non-empty, at most 10 steps) if the structural check passes. -/
def RawItem.stepsOk : RawItem → Prop
  | RawItem.nondict => True
  | RawItem.record id name _ steps _ _ =>
    (id.isSome ∧ name.isSome ∧ steps.isSome) →
      (steps.getD [] ≠ [] ∧ (steps.getD []).length ≤ 10)

instance : DecidablePred RawItem.stepsOk := fun it =>
  match it with
  | RawItem.nondict => isTrue trivial
  | RawItem.record id name _ steps _ _ =>
    inferInstanceAs (Decidable ((id.isSome ∧ name.isSome ∧ steps.isSome) →
      (steps.getD [] ≠ [] ∧ (steps.getD []).length ≤ 10)))

/-- The `Process` a structurally valid, step-bound-respecting raw item builds. -/
def RawItem.toProcess : RawItem → Option Process
  | RawItem.nondict => none
  | RawItem.record id name description steps rp tr =>
    if id.isSome ∧ name.isSome ∧ steps.isSome then
      match Process.from_ai_response id name description steps rp tr with
      | Except.ok p => some p
      | Except.error _ => none
    else none

/-- A character of the sanitized-identifier alphabet `[a-z0-9-]`. -/
def isIdChar (c : Char) : Bool :=
  isAlnumL c || c = '-'

/-- No two adjacent hyphens. -/
def noDH (l : List Char) : Prop :=
  l.Chain' (fun a b => ¬ (a = '-' ∧ b = '-'))

/-- The shape of every non-fallback sanitizer output: non-empty, over
`[a-z0-9-]`, no boundary hyphen, no doubled hyphen. -/
def CleanId (l : List Char) : Prop :=
  l ≠ [] ∧ (∀ c ∈ l, isIdChar c) ∧ l.head? ≠ some '-' ∧
    l.getLast? ≠ some '-' ∧ noDH l

instance : DecidablePred noDH := fun l =>
  inferInstanceAs (Decidable (l.Chain' (fun a b => ¬ (a = '-' ∧ b = '-'))))

instance : DecidablePred CleanId := fun l =>
  inferInstanceAs (Decidable (l ≠ [] ∧ (∀ c ∈ l, isIdChar c) ∧
    l.head? ≠ some '-' ∧ l.getLast? ≠ some '-' ∧ noDH l))

/-- The Unicode interface behaves like Python's on the sanitized-identifier
alphabet: NFD fixes these characters, they are not combining marks, and
lower-casing fixes them. -/
def Uni.tame (u : Uni) : Prop :=
  ∀ c, isIdChar c → u.nfd c = [c] ∧ u.isMn c = false ∧ u.lower c = c

/-- A Unicode interface that is the identity everywhere; it is `tame`. -/
def idUni : Uni :=
  { nfd := fun c => [c], isMn := fun _ => false, lower := fun c => c }

/-- The edge relation of a dependency graph: `a` depends on `b`. -/
def Edge (g : Graph) (a b : String) : Prop :=
  b ∈ adjOf g a

/-- A graph contains a cycle: some node reaches itself by a non-empty
edge path. -/
def HasCycleProp (g : Graph) : Prop :=
  ∃ x, Relation.TransGen (Edge g) x x

/-- The DFS invariant: the finished ("black") nodes — visited nodes not on
the recursion stack — are closed under edges and no cycle passes through
any of them. -/
def BlackInv (g : Graph) (V S : List String) : Prop :=
  (∀ x ∈ V, x ∉ S → ∀ y, Edge g x y → y ∈ V ∧ y ∉ S) ∧
  (∀ x ∈ V, x ∉ S → ¬ Relation.TransGen (Edge g) x x)

/-! ## Theorems -/

theorem adjOf_map_nil (g : Graph) (k : String) :
    adjOf (g.map (fun kv => (kv.1, ([] : List String)))) k = [] := by
  induction g with
  | nil => rfl
  | cons a t ih =>
    simp only [List.map_cons, adjOf, List.lookup] at ih ⊢
    by_cases hk : k == a.1
    · simp [hk]
    · simp only [hk]
      exact ih

theorem hasCyclesAux_no_edges (g : Graph) (hadj : ∀ n, adjOf g n = [])
    (keys : List String) : ∀ (fuel : Nat) (V : List String),
      keys.length + 1 ≤ fuel → hasCyclesAux g fuel keys V = false := by
  induction keys with
  | nil =>
    intro fuel V hf
    cases fuel with
    | zero => omega
    | succ f => rfl
  | cons k ks ih =>
    intro fuel V hf
    cases fuel with
    | zero => simp at hf
    | succ f =>
      have hkslen : ks.length + 1 ≤ f := by simp at hf; omega
      show hasCyclesAux g (f + 1) (k :: ks) V = false
      by_cases hk : k ∈ V
      · simpa [hasCyclesAux, hk] using ih f V hkslen
      · have hf1 : 1 ≤ f := by omega
        cases f with
        | zero => omega
        | succ f2 =>
          simp only [hasCyclesAux, hk, if_neg, ite_false, hadj k]
          have hdfs : dfsList g (f2 + 1) [] (k :: V) [k] = (k :: V, false) := rfl
          simp only [hk, ite_false, hdfs]
          exact ih (f2 + 1) (k :: V) hkslen

theorem hasCycles_no_edges (g : Graph) :
    has_cycles (g.map (fun kv => (kv.1, ([] : List String)))) = false := by
  apply hasCyclesAux_no_edges
  · intro n; exact adjOf_map_nil g n
  · simp [graphFuel]
    omega

theorem remove_cycles_inner_fold (k : String) (deps : List String) :
    ∀ clean : Graph, has_cycles clean = false →
      has_cycles (deps.foldl (fun clean dep =>
        let temp := addEdge clean k dep
        if has_cycles temp then clean else temp) clean) = false := by
  induction deps with
  | nil => intro clean h; exact h
  | cons d ds ih =>
    intro clean h
    simp only [List.foldl_cons]
    by_cases ht : has_cycles (addEdge clean k d) = true
    · simp only [ht, if_true, ite_true]
      exact ih clean h
    · have ht' : has_cycles (addEdge clean k d) = false := by
        cases hb : has_cycles (addEdge clean k d)
        · rfl
        · exact absurd hb ht
      simp only [ht', Bool.false_eq_true, if_false, ite_false]
      exact ih _ ht'

/-- C6: the graph returned by `remove_cycles` is always acyclic according to
`has_cycles`, for every input graph. -/
theorem c6_remove_cycles_acyclic (g : Graph) :
    has_cycles (remove_cycles g) = false := by
  unfold remove_cycles
  have hinv : ∀ (l : List (String × List String)) (clean : Graph),
      has_cycles clean = false →
      has_cycles (l.foldl (fun clean kv =>
        kv.2.foldl (fun clean dep =>
          let temp := addEdge clean kv.1 dep
          if has_cycles temp then clean else temp) clean) clean) = false := by
    intro l
    induction l with
    | nil => intro clean h; exact h
    | cons kv t ih =>
      intro clean h
      simp only [List.foldl_cons]
      exact ih _ (remove_cycles_inner_fold kv.1 kv.2 clean h)
  exact hinv g _ (hasCycles_no_edges g)

/-- C4: on the acyclic two-node graph `{"b": ["a"], "a": []}` the code's
`topological_sort` returns only `["b"]`: the key `"a"` of the graph is
missing from the result, so the result neither contains each node exactly
once nor places the dependency `"a"` before its dependent `"b"`.  (The
queue-update loop decrements the entries of keys that depend on the popped
node, while the initial in-degrees count how often a key occurs as a
dependency, so no in-degree ever reaches zero after initialization.) -/
theorem c4_topological_sort_drops_node :
    topological_sort [("b", ["a"]), ("a", [])] = Except.ok ["b"] ∧
      "a" ∈ ([("b", ["a"]), ("a", [])] : Graph).map Prod.fst ∧
      ¬ "a" ∈ ["b"] :=
  ⟨rfl, by decide, by decide⟩

/-- C7: for a non-empty step list, the synthesized transition list starts
with the initial transition, which alone carries the sanitized dependency
ids; every later transition's `automata_dependencies` list is empty. -/
theorem c7_dependencies_only_on_first_transition (u : Uni) (m : Nat)
    (steps dependencies : List String) (h : steps ≠ []) :
    ((create_transitions_from_steps u m steps dependencies).head?.map
        Transition.automata_dependencies
      = some (dependencies.map (sanitizeStr u m))) ∧
    ∀ t ∈ (create_transitions_from_steps u m steps dependencies).tail,
      t.automata_dependencies = [] := by
  cases steps with
  | nil => exact absurd rfl h
  | cons s0 rest =>
    constructor
    · rfl
    · intro t ht
      simp only [create_transitions_from_steps, List.tail_cons] at ht
      rcases List.mem_append.mp ht with hm | hl
      · rcases List.mem_map.mp hm with ⟨ab, _, rfl⟩
        rfl
      · rcases List.mem_singleton.mp hl with rfl
        rfl

theorem c7_witness :
    ((create_transitions_from_steps asciiUni 50 ["invoice"] ["01"]).head?.map
        Transition.automata_dependencies = some ["01"]) ∧
    ∀ t ∈ (create_transitions_from_steps asciiUni 50 ["invoice"] ["01"]).tail,
      t.automata_dependencies = [] := by
  have h := c7_dependencies_only_on_first_transition asciiUni 50 ["invoice"]
    ["01"] (by decide)
  exact ⟨by rw [h.1]; rfl, h.2⟩

theorem states_getElem_zero (u : Uni) (m : Nat) (steps : List String) :
    (create_states_from_steps u m steps)[0]?
      = some { id := "state-initial", type := "default" } := by
  simp [create_states_from_steps]

theorem states_getElem_mid (u : Uni) (m : Nat) (steps : List String) (j : Nat)
    (hj : j < steps.length) :
    (create_states_from_steps u m steps)[j + 1]?
      = some (mkStepState u m steps[j]) := by
  simp only [create_states_from_steps, List.getElem?_cons_succ]
  rw [List.getElem?_append_left (by simpa using hj), List.getElem?_map,
    List.getElem?_eq_getElem hj]
  rfl

theorem states_getElem_last (u : Uni) (m : Nat) (steps : List String) :
    (create_states_from_steps u m steps)[steps.length + 1]?
      = some { id := "state-completed", type := "default" } := by
  simp only [create_states_from_steps, List.getElem?_cons_succ]
  rw [List.getElem?_append_right (by simp)]
  simp

theorem zip_tail_getElem (steps : List String) :
    ∀ (j : Nat) (a b : String), steps[j]? = some a → steps[j + 1]? = some b →
      (steps.zip steps.tail)[j]? = some (a, b) := by
  induction steps with
  | nil => intro j a b h1 _; simp at h1
  | cons x xs ih =>
    intro j a b h1 h2
    cases j with
    | zero =>
      simp only [List.getElem?_cons_zero, Option.some_inj] at h1
      subst h1
      rw [List.getElem?_cons_succ] at h2
      cases xs with
      | nil => simp at h2
      | cons y ys =>
        simp only [List.getElem?_cons_zero, Option.some_inj] at h2
        subst h2
        simp [List.zip_cons_cons]
    | succ j' =>
      rw [List.getElem?_cons_succ] at h1 h2
      cases xs with
      | nil => simp at h1
      | cons y ys =>
        have := ih j' a b h1 h2
        simpa [List.zip_cons_cons] using this

theorem transitions_getElem_zero (u : Uni) (m : Nat) (s0 : String)
    (rest dependencies : List String) :
    (create_transitions_from_steps u m (s0 :: rest) dependencies)[0]?
      = some (mkInitialTransition u m s0 dependencies) := by
  simp [create_transitions_from_steps]

theorem transitions_getElem_mid (u : Uni) (m : Nat) (s0 : String)
    (rest dependencies : List String) (j : Nat) (hj0 : j < (s0 :: rest).length)
    (hj1 : j + 1 < (s0 :: rest).length) :
    (create_transitions_from_steps u m (s0 :: rest) dependencies)[j + 1]?
      = some (mkMidTransition u m (s0 :: rest)[j] (s0 :: rest)[j + 1]) := by
  simp only [create_transitions_from_steps, List.getElem?_cons_succ]
  simp only [List.length_cons] at hj0 hj1
  have hjr : j < ((s0 :: rest).zip rest).length := by
    simp only [List.length_zip, List.length_cons]
    omega
  rw [List.getElem?_append_left (by simpa using hjr), List.getElem?_map]
  have hz := zip_tail_getElem (s0 :: rest) j ((s0 :: rest)[j]) ((s0 :: rest)[j + 1])
    (List.getElem?_eq_getElem (by simpa using hj0)) (List.getElem?_eq_getElem (by simpa using hj1))
  simp only [List.tail_cons] at hz
  rw [hz]
  rfl

theorem transitions_getElem_last (u : Uni) (m : Nat) (s0 : String)
    (rest dependencies : List String) :
    (create_transitions_from_steps u m (s0 :: rest) dependencies)[rest.length + 1]?
      = some (mkFinalTransition u m ((s0 :: rest).getLastD s0)) := by
  simp only [create_transitions_from_steps, List.getElem?_cons_succ]
  rw [List.getElem?_append_right (by simp [List.length_zip])]
  simp [List.length_zip]

theorem getLastD_cons_eq_getElem (s0 : String) (rest : List String)
    (hb : rest.length < (s0 :: rest).length) :
    (s0 :: rest).getLastD s0 = (s0 :: rest)[rest.length] := by
  rw [List.getLastD_eq_getLast?, List.getLast?_eq_getElem?]
  simp only [List.length_cons, Nat.add_sub_cancel]
  rw [List.getElem?_eq_getElem hb]
  rfl

/-- C5: for a process with a non-empty step list of length `n`, the
synthesized automaton has `n + 2` states (synthetic initial state, one per
step in order, synthetic completed state) and `n + 1` transitions, and
transition `i` leads from state `i` to state `i + 1`. -/
theorem c5_automaton_shape (u : Uni) (m : Nat) (steps dependencies : List String)
    (h : steps ≠ []) :
    (create_states_from_steps u m steps).length = steps.length + 2 ∧
    (create_transitions_from_steps u m steps dependencies).length = steps.length + 1 ∧
    ∀ i, i < steps.length + 1 →
      ((create_transitions_from_steps u m steps dependencies)[i]?).map
          Transition.source
        = ((create_states_from_steps u m steps)[i]?).map State.id ∧
      ((create_transitions_from_steps u m steps dependencies)[i]?).map
          Transition.target
        = ((create_states_from_steps u m steps)[i + 1]?).map State.id := by
  cases steps with
  | nil => exact absurd rfl h
  | cons s0 rest =>
    refine ⟨by simp [create_states_from_steps],
      by simp [create_transitions_from_steps, List.length_zip], ?_⟩
    intro i hi
    cases i with
    | zero =>
      constructor
      · rw [transitions_getElem_zero, states_getElem_zero]
        rfl
      · rw [transitions_getElem_zero]
        rw [states_getElem_mid u m (s0 :: rest) 0 (by simp)]
        simp [mkInitialTransition, mkStepState]
    | succ j =>
      by_cases hmid : j + 1 < (s0 :: rest).length
      · have hj0 : j < (s0 :: rest).length := by omega
        constructor
        · rw [transitions_getElem_mid u m s0 rest dependencies j hj0 hmid,
            states_getElem_mid u m (s0 :: rest) j hj0]
          rfl
        · rw [transitions_getElem_mid u m s0 rest dependencies j hj0 hmid,
            states_getElem_mid u m (s0 :: rest) (j + 1) hmid]
          rfl
      · have hj : j = rest.length := by
          simp only [List.length_cons] at hi hmid
          omega
        subst hj
        constructor
        · rw [transitions_getElem_last,
            states_getElem_mid u m (s0 :: rest) rest.length (by simp)]
          have hlast := getLastD_cons_eq_getElem s0 rest (by simp)
          rw [List.getLastD_eq_getLast?] at hlast
          simp [mkFinalTransition, mkStepState, hlast]
        · rw [transitions_getElem_last]
          have hix : rest.length + 1 + 1 = (s0 :: rest).length + 1 := by simp
          rw [hix, states_getElem_last]
          rfl

theorem c5_witness :
    (create_states_from_steps asciiUni 50 ["check", "sign"]).length = 2 + 2 ∧
    (create_transitions_from_steps asciiUni 50 ["check", "sign"] []).length = 2 + 1 ∧
    ((create_transitions_from_steps asciiUni 50 ["check", "sign"] [])[1]?).map
        Transition.source
      = ((create_states_from_steps asciiUni 50 ["check", "sign"])[1]?).map
        State.id := by
  have h := c5_automaton_shape asciiUni 50 ["check", "sign"] [] (by decide)
  exact ⟨h.1, h.2.1, (h.2.2 1 (by decide)).1⟩

theorem parse_dependencies_response_dict (dec : List Char → Option PyDeps)
    (response : List Char) (processes : List Process) (span : List Char)
    (d : List (String × List String))
    (h1 : extract_json_object response = some span)
    (h2 : dec span = some (PyDeps.dict d)) :
    parse_dependencies_response dec response processes
      = validDepsOfDict d processes := by
  unfold parse_dependencies_response
  simp only [h1, h2]

theorem lookup_mem {β : Type} (k : String) (v : β) :
    ∀ l : List (String × β), List.lookup k l = some v → (k, v) ∈ l := by
  intro l
  induction l with
  | nil => intro h; simp [List.lookup] at h
  | cons a t ih =>
    intro h
    obtain ⟨a1, a2⟩ := a
    rw [List.lookup] at h
    by_cases hk : k = a1
    · subst hk
      simp only [beq_self_eq_true] at h
      cases h
      exact List.mem_cons_self _ _
    · have : (k == a1) = false := beq_false_of_ne hk
      rw [this] at h
      exact List.mem_cons_of_mem _ (ih h)

/-- C1 (amended): when a balanced object span is found and decodes to a
dict, the dependency map has exactly one entry per supplied process id —
the entry keys are precisely the distinct supplied process ids. -/
theorem c1_one_entry_per_process_id (dec : List Char → Option PyDeps)
    (response : List Char) (processes : List Process) (span : List Char)
    (d : List (String × List String))
    (h1 : extract_json_object response = some span)
    (h2 : dec span = some (PyDeps.dict d)) :
    (parse_dependencies_response dec response processes).map Prod.fst
      = (processes.map Process.id).dedup := by
  rw [parse_dependencies_response_dict dec response processes span d h1 h2]
  unfold validDepsOfDict
  rw [List.map_map]
  have hmap : ∀ pid ∈ (processes.map Process.id).dedup,
      (Prod.fst ∘ fun pid =>
        match List.lookup pid d with
        | some deps =>
          (pid, deps.filter (fun dep =>
            dep ∈ (processes.map Process.id).dedup ∧ dep ≠ pid))
        | none => (pid, [])) pid = id pid := by
    intro pid _
    show Prod.fst (match List.lookup pid d with
      | some deps => (pid, deps.filter (fun dep =>
          dep ∈ (processes.map Process.id).dedup ∧ dep ≠ pid))
      | none => (pid, [])) = pid
    cases List.lookup pid d <;> rfl
  rw [List.map_congr_left hmap, List.map_id]

theorem c1_witness :
    (parse_dependencies_response
        (fun _ => some (PyDeps.dict [("02", ["01", "03", "02"])]))
        "{}".toList
        [{ id := "01", name := "Reception", description := "",
           steps := ["check"], responsible_party := "", triggers := "" },
         { id := "02", name := "Payment", description := "",
           steps := ["invoice"], responsible_party := "", triggers := "" }]).map
      Prod.fst = ["01", "02"] :=
  c1_one_entry_per_process_id
    (fun _ => some (PyDeps.dict [("02", ["01", "03", "02"])])) "{}".toList
    [{ id := "01", name := "Reception", description := "",
       steps := ["check"], responsible_party := "", triggers := "" },
     { id := "02", name := "Payment", description := "",
       steps := ["invoice"], responsible_party := "", triggers := "" }]
    "{}".toList [("02", ["01", "03", "02"])] rfl rfl

/-- C1 counterexample: with one supplied process and a response containing
no balanced JSON object span, `_parse_dependencies_response` returns the
empty map, which does not have one entry per supplied process id. -/
theorem c1_counterexample :
    (parse_dependencies_response (fun _ => none) "the service failed".toList
        [{ id := "01", name := "Reception", description := "",
           steps := ["check"], responsible_party := "", triggers := "" }]).map
      Prod.fst
      ≠ ([{ id := "01", name := "Reception", description := "",
            steps := ["check"], responsible_party := "", triggers := "" }].map
          Process.id).dedup := by
  decide

/-- C9: in the map returned by `_parse_dependencies_response` from a
successfully decoded dict, every stored dependency id is a known process id
and is never the owning process id itself. -/
theorem c9_dependencies_known_and_not_self (dec : List Char → Option PyDeps)
    (response : List Char) (processes : List Process) (span : List Char)
    (d : List (String × List String))
    (h1 : extract_json_object response = some span)
    (h2 : dec span = some (PyDeps.dict d)) :
    ∀ pid l, (pid, l) ∈ parse_dependencies_response dec response processes →
      ∀ x ∈ l, x ∈ processes.map Process.id ∧ x ≠ pid := by
  rw [parse_dependencies_response_dict dec response processes span d h1 h2]
  unfold validDepsOfDict
  intro pid l hmem x hx
  rcases List.mem_map.mp hmem with ⟨pid', _, heq⟩
  cases hl : List.lookup pid' d with
  | none =>
    rw [hl] at heq
    obtain ⟨rfl, rfl⟩ := Prod.mk.injEq .. ▸ heq
    exact absurd hx (List.not_mem_nil x)
  | some deps =>
    rw [hl] at heq
    have hpid : pid' = pid := congrArg Prod.fst heq
    subst hpid
    have hll : l = deps.filter (fun dep =>
        dep ∈ (processes.map Process.id).dedup ∧ dep ≠ pid') :=
      (congrArg Prod.snd heq).symm
    subst hll
    simp only [List.mem_filter, decide_eq_true_eq] at hx
    exact ⟨List.mem_dedup.mp hx.2.1, hx.2.2⟩

theorem c9_witness :
    "01" ∈ ([{ id := "01", name := "Reception", description := "",
               steps := ["check"], responsible_party := "", triggers := "" },
             { id := "02", name := "Payment", description := "",
               steps := ["invoice"], responsible_party := "", triggers := "" }].map
        Process.id) ∧ "01" ≠ "02" :=
  c9_dependencies_known_and_not_self
    (fun _ => some (PyDeps.dict [("02", ["01", "03", "02"])])) "{}".toList
    [{ id := "01", name := "Reception", description := "",
       steps := ["check"], responsible_party := "", triggers := "" },
     { id := "02", name := "Payment", description := "",
       steps := ["invoice"], responsible_party := "", triggers := "" }]
    "{}".toList [("02", ["01", "03", "02"])] rfl rfl
    "02" ["01"] (by decide) "01" (by decide)

theorem buildProcesses_ok (items : List RawItem)
    (h : ∀ it ∈ items, it.stepsOk) :
    buildProcesses items = Except.ok (items.filterMap RawItem.toProcess) := by
  induction items with
  | nil => rfl
  | cons it rest ih =>
    have hrest : ∀ x ∈ rest, x.stepsOk :=
      fun x hx => h x (List.mem_cons_of_mem _ hx)
    cases it with
    | nondict =>
      simpa [buildProcesses, RawItem.toProcess, List.filterMap_cons]
        using ih hrest
    | record id name dsc steps rp tr =>
      by_cases hv : id.isSome ∧ name.isSome ∧ steps.isSome
      · have hst : steps.getD [] ≠ [] ∧ (steps.getD []).length ≤ 10 :=
          h _ (List.mem_cons_self _ _) hv
        have hgt : ¬ (steps.getD []).length > 10 := by omega
        simp only [buildProcesses, hv, if_true, Process.from_ai_response,
          hst.1, hgt, ite_false, if_neg, RawItem.toProcess,
          List.filterMap_cons, ih hrest]
        rfl
      · simp [buildProcesses, hv, RawItem.toProcess, List.filterMap_cons,
          ih hrest]

/-- C2 (amended): raw records that are not dicts or miss one of the required
fields `id`, `name`, `steps` are dropped non-fatally and the remaining
records are built, provided every structurally valid record also satisfies
the step-count bounds; a record violating the bounds instead aborts the whole
parse (see the counterexample). -/
theorem c2_parse_processes_salvages (dec : List Char → Option (List RawItem))
    (response span : List Char) (items : List RawItem)
    (h1 : extract_json_array response = some span)
    (h2 : dec span = some items)
    (h : ∀ it ∈ items, it.stepsOk) :
    parse_processes_response dec response
      = Except.ok (items.filterMap RawItem.toProcess) := by
  unfold parse_processes_response
  simp only [h1, h2]
  exact buildProcesses_ok items h

theorem c2_witness :
    parse_processes_response
      (fun _ => some
        [RawItem.record (some "01") (some "A") none (some ["s1", "s2"]) none none,
         RawItem.nondict,
         RawItem.record none (some "B") none (some ["s3"]) none none])
      "[]".toList
      = Except.ok
        [{ id := "01", name := "A", description := "", steps := ["s1", "s2"],
           responsible_party := "", triggers := "" }] :=
  c2_parse_processes_salvages
    (fun _ => some
      [RawItem.record (some "01") (some "A") none (some ["s1", "s2"]) none none,
       RawItem.nondict,
       RawItem.record none (some "B") none (some ["s3"]) none none])
    "[]".toList "[]".toList
    [RawItem.record (some "01") (some "A") none (some ["s1", "s2"]) none none,
     RawItem.nondict,
     RawItem.record none (some "B") none (some ["s3"]) none none]
    rfl rfl (by decide)

/-- C2 counterexample: a decoded array containing one valid record and one
record with 11 steps makes `_parse_processes_response` raise the step-bound
validation error instead of returning the surviving record. -/
theorem c2_counterexample :
    parse_processes_response
      (fun _ => some
        [RawItem.record (some "01") (some "A") none (some ["s1"]) none none,
         RawItem.record (some "02") (some "B") none
           (some ["a", "b", "c", "d", "e", "f", "g", "h", "i", "j", "k"])
           none none])
      "[]".toList
      = Except.error "Process cannot have more than 10 steps" := by
  rfl

theorem foldr_validate_nil (ids : List String) (msg : Automate → String → String) :
    ∀ l : List Automate,
      (∀ a ∈ l, a.automata_dependencies.filter (fun dep => ¬ dep ∈ ids) = []) →
      l.foldr (fun a errs =>
        ((a.automata_dependencies.filter (fun dep => ¬ dep ∈ ids)).map (msg a))
          ++ errs) [] = [] := by
  intro l
  induction l with
  | nil => intro _; rfl
  | cons a t ih =>
    intro h
    simp only [List.foldr_cons]
    rw [h a (List.mem_cons_self _ _), ih (fun x hx => h x (List.mem_cons_of_mem _ hx))]
    rfl

/-- C10: if every id in the dependency map's value lists is the id of some
process in the supplied list, then the contract assembled by the loop of
`_generate_automatons` has no dangling dependency reference —
`Contract.validate_dependencies` returns no errors.  This is the intended
behavior of the function; as run, it raises `ModuleNotFoundError` at its
broken `from ..models.automate import Automate` statement before assembling
anything (see `generate_automatons`). -/
theorem c10_no_dangling_dependencies (u : Uni) (processes : List Process)
    (dependencies : List (String × List String))
    (hdeps : ∀ kv ∈ dependencies, ∀ dp ∈ kv.2, dp ∈ processes.map Process.id) :
    (generate_automatons u processes dependencies).validate_dependencies = [] := by
  unfold generate_automatons Contract.validate_dependencies
  apply foldr_validate_nil
  intro a ha
  rcases List.mem_map.mp ha with ⟨p, hp, rfl⟩
  rw [List.filter_eq_nil_iff]
  intro x hx
  rcases List.mem_map.mp hx with ⟨dp, hdp, rfl⟩
  simp only [decide_not, Bool.not_eq_true', Bool.not_eq_false, decide_eq_true_eq]
  cases hl : List.lookup p.id dependencies with
  | none =>
    simp only [Automate.from_process, hl, Option.getD_none,
      List.not_mem_nil] at hdp
  | some lst =>
    simp only [Automate.from_process, hl, Option.getD_some] at hdp
    have hkv : (p.id, lst) ∈ dependencies := lookup_mem p.id lst dependencies hl
    have hdpid : dp ∈ processes.map Process.id := hdeps (p.id, lst) hkv dp hdp
    rcases List.mem_map.mp hdpid with ⟨p', hp', rfl⟩
    apply List.mem_map.mpr
    exact ⟨Automate.from_process u 50 p' ((List.lookup p'.id dependencies).getD []),
      List.mem_map.mpr ⟨p', hp', rfl⟩, rfl⟩

theorem c10_witness :
    (generate_automatons asciiUni
      [{ id := "01", name := "Reception", description := "",
         steps := ["check"], responsible_party := "", triggers := "" },
       { id := "02", name := "Payment", description := "",
         steps := ["invoice"], responsible_party := "", triggers := "" }]
      [("01", []), ("02", ["01"])]).validate_dependencies = [] :=
  c10_no_dangling_dependencies asciiUni
    [{ id := "01", name := "Reception", description := "",
       steps := ["check"], responsible_party := "", triggers := "" },
     { id := "02", name := "Payment", description := "",
       steps := ["invoice"], responsible_party := "", triggers := "" }]
    [("01", []), ("02", ["01"])] (by decide)

theorem isAlnumL_ne_hyphen (c : Char) (h : isAlnumL c = true) : c ≠ '-' := by
  intro hc
  subst hc
  exact absurd h (by decide)

theorem subSpecial_mem (l : List Char) : ∀ c ∈ subSpecial l, isIdChar c := by
  induction l with
  | nil => intro c hc; simp [subSpecial] at hc
  | cons a rest ih =>
    intro c hc
    by_cases ha : isAlnumL a
    · rw [subSpecial, if_pos ha] at hc
      rcases List.mem_cons.mp hc with rfl | hc'
      · simp [isIdChar, ha]
      · exact ih c hc'
    · rw [subSpecial, if_neg ha] at hc
      by_cases hh : rest.head?.all isAlnumL
      · rw [if_pos hh] at hc
        rcases List.mem_cons.mp hc with rfl | hc'
        · decide
        · exact ih c hc'
      · rw [if_neg hh] at hc
        exact ih c hc

theorem subSpecial_head_alnum (a : Char) (rest : List Char)
    (ha : isAlnumL a) : (subSpecial (a :: rest)).head? = some a := by
  rw [subSpecial, if_pos ha]
  rfl

theorem subSpecial_noDH (l : List Char) : noDH (subSpecial l) := by
  induction l with
  | nil => simp [subSpecial, noDH]
  | cons a rest ih =>
    by_cases ha : isAlnumL a
    · rw [subSpecial, if_pos ha, noDH, List.chain'_cons']
      exact ⟨fun b _ hab => isAlnumL_ne_hyphen a ha hab.1, ih⟩
    · rw [subSpecial, if_neg ha]
      by_cases hh : rest.head?.all isAlnumL
      · rw [if_pos hh, noDH, List.chain'_cons']
        refine ⟨?_, ih⟩
        intro b hb hab
        cases rest with
        | nil => simp [subSpecial] at hb
        | cons d r2 =>
          have hd : isAlnumL d := by simpa using hh
          rw [subSpecial_head_alnum d r2 hd] at hb
          simp only [Option.mem_def, Option.some_inj] at hb
          subst hb
          exact isAlnumL_ne_hyphen _ hd hab.2
      · rw [if_neg hh]
        exact ih

theorem subSpecial_eq_self (l : List Char) (h1 : ∀ c ∈ l, isIdChar c)
    (h2 : noDH l) : subSpecial l = l := by
  induction l with
  | nil => rfl
  | cons a rest ih =>
    have h1r : ∀ c ∈ rest, isIdChar c := fun c hc => h1 c (List.mem_cons_of_mem _ hc)
    have h2r : noDH rest := h2.tail
    by_cases ha : isAlnumL a
    · rw [subSpecial, if_pos ha, ih h1r h2r]
    · have ha' : a = '-' := by
        have := h1 a (List.mem_cons_self _ _)
        simp only [isIdChar, Bool.or_eq_true, decide_eq_true_eq] at this
        rcases this with h | h
        · exact absurd h ha
        · exact h
      subst ha'
      cases rest with
      | nil => rfl
      | cons d r2 =>
        have hd : isIdChar d := h1r d (List.mem_cons_self _ _)
        have hdne : d ≠ '-' := by
          rw [noDH, List.chain'_cons] at h2
          intro hdeq
          exact h2.1 ⟨rfl, hdeq⟩
        have hdal : isAlnumL d := by
          simp only [isIdChar, Bool.or_eq_true, decide_eq_true_eq] at hd
          rcases hd with hd | hd
          · exact hd
          · exact absurd hd hdne
        rw [subSpecial, if_neg ha, if_pos (by simp [hdal])]
        rw [ih h1r h2r]

theorem collapse_head (l : List Char) :
    (collapseHyphens l).head? = l.head? := by
  induction l with
  | nil => rfl
  | cons c rest ih =>
    rw [collapseHyphens]
    by_cases h : c = '-' ∧ rest.head? = some '-'
    · rw [if_pos h, ih, h.2, h.1]
      rfl
    · rw [if_neg h]
      rfl

theorem collapse_subset (l : List Char) :
    ∀ c ∈ collapseHyphens l, c ∈ l := by
  induction l with
  | nil => intro c hc; exact absurd hc (List.not_mem_nil c)
  | cons a rest ih =>
    intro c hc
    rw [collapseHyphens] at hc
    by_cases h : a = '-' ∧ rest.head? = some '-'
    · rw [if_pos h] at hc
      exact List.mem_cons_of_mem _ (ih c hc)
    · rw [if_neg h] at hc
      rcases List.mem_cons.mp hc with rfl | hc'
      · exact List.mem_cons_self _ _
      · exact List.mem_cons_of_mem _ (ih c hc')

theorem collapse_noDH (l : List Char) : noDH (collapseHyphens l) := by
  induction l with
  | nil => simp [collapseHyphens, noDH]
  | cons a rest ih =>
    rw [collapseHyphens]
    by_cases h : a = '-' ∧ rest.head? = some '-'
    · rw [if_pos h]
      exact ih
    · rw [if_neg h, noDH, List.chain'_cons']
      refine ⟨?_, ih⟩
      intro b hb hab
      simp only [Option.mem_def, collapse_head] at hb
      apply h
      rw [hab.2] at hb
      exact ⟨hab.1, hb⟩

theorem collapse_eq_self (l : List Char) (h : noDH l) :
    collapseHyphens l = l := by
  induction l with
  | nil => rfl
  | cons a rest ih =>
    rw [collapseHyphens]
    by_cases hc : a = '-' ∧ rest.head? = some '-'
    · exfalso
      cases rest with
      | nil => simp at hc
      | cons d r2 =>
        rw [noDH, List.chain'_cons] at h
        simp only [List.head?_cons, Option.some_inj] at hc
        exact h.1 ⟨hc.1, hc.2⟩
    · rw [if_neg hc, ih h.tail]

theorem rstrip_subset (l : List Char) :
    ∀ c ∈ rstripHyphen l, c ∈ l := by
  induction l with
  | nil => intro c hc; exact absurd hc (List.not_mem_nil c)
  | cons a rest ih =>
    intro c hc
    rw [rstripHyphen] at hc
    by_cases h : rstripHyphen rest = [] ∧ a = '-'
    · rw [if_pos h] at hc
      exact absurd hc (List.not_mem_nil c)
    · rw [if_neg h] at hc
      rcases List.mem_cons.mp hc with rfl | hc'
      · exact List.mem_cons_self _ _
      · exact List.mem_cons_of_mem _ (ih c hc')

theorem rstrip_prefix (l : List Char) :
    ∃ t, rstripHyphen l ++ t = l := by
  induction l with
  | nil => exact ⟨[], rfl⟩
  | cons a rest ih =>
    rw [rstripHyphen]
    by_cases h : rstripHyphen rest = [] ∧ a = '-'
    · rw [if_pos h]
      exact ⟨a :: rest, rfl⟩
    · rw [if_neg h]
      obtain ⟨t, ht⟩ := ih
      exact ⟨t, by rw [List.cons_append, ht]⟩

theorem rstrip_noDH (l : List Char) (h : noDH l) : noDH (rstripHyphen l) := by
  obtain ⟨t, ht⟩ := rstrip_prefix l
  rw [noDH] at h ⊢
  rw [← ht] at h
  exact h.left_of_append

theorem rstrip_head (l : List Char) (hne : rstripHyphen l ≠ []) :
    (rstripHyphen l).head? = l.head? := by
  cases l with
  | nil => rfl
  | cons a rest =>
    rw [rstripHyphen] at hne ⊢
    by_cases h : rstripHyphen rest = [] ∧ a = '-'
    · rw [if_pos h] at hne
      exact absurd rfl hne
    · rw [if_neg h]
      rfl

theorem rstrip_getLast (l : List Char) :
    (rstripHyphen l).getLast? ≠ some '-' := by
  induction l with
  | nil => simp [rstripHyphen]
  | cons a rest ih =>
    rw [rstripHyphen]
    by_cases h : rstripHyphen rest = [] ∧ a = '-'
    · rw [if_pos h]
      simp
    · rw [if_neg h]
      cases hr : rstripHyphen rest with
      | nil =>
        have ha : a ≠ '-' := fun hh => h ⟨hr, hh⟩
        simp only [List.getLast?_singleton]
        exact fun hh => ha (Option.some.inj hh)
      | cons x xs =>
        rw [List.getLast?_cons_cons]
        rw [hr] at ih
        exact ih

theorem rstrip_eq_self (l : List Char) (h : l.getLast? ≠ some '-') :
    rstripHyphen l = l := by
  induction l with
  | nil => rfl
  | cons a rest ih =>
    cases rest with
    | nil =>
      have ha : a ≠ '-' := by
        simpa [List.getLast?_singleton] using h
      rw [rstripHyphen]
      simp [rstripHyphen, ha]
    | cons d r2 =>
      rw [List.getLast?_cons_cons] at h
      have hr := ih h
      rw [rstripHyphen, hr]
      simp

theorem rstrip_length_le (l : List Char) :
    (rstripHyphen l).length ≤ l.length := by
  obtain ⟨t, ht⟩ := rstrip_prefix l
  calc (rstripHyphen l).length ≤ (rstripHyphen l ++ t).length := by
        simp
    _ = l.length := by rw [ht]

theorem dw_subset (l : List Char) :
    ∀ c ∈ l.dropWhile (fun c => c = '-'), c ∈ l :=
  fun _ hc => (List.dropWhile_suffix _).subset hc

theorem dw_noDH (l : List Char) (h : noDH l) :
    noDH (l.dropWhile (fun c => c = '-')) := by
  obtain ⟨t, ht⟩ := List.dropWhile_suffix (l := l) (fun c => c = '-')
  rw [noDH] at h ⊢
  rw [← ht] at h
  exact h.right_of_append

theorem dw_head_ne (l : List Char) :
    (l.dropWhile (fun c => c = '-')).head? ≠ some '-' := by
  induction l with
  | nil => simp
  | cons a rest ih =>
    rw [List.dropWhile_cons]
    by_cases ha : a = '-'
    · simp only [ha, decide_True, if_true, ite_true]
      exact ih
    · simp only [ha, decide_False, if_false, ite_false, List.head?_cons]
      exact fun hh => ha (Option.some.inj hh)

theorem dw_eq_self (l : List Char) (h : l.head? ≠ some '-') :
    l.dropWhile (fun c => c = '-') = l := by
  cases l with
  | nil => rfl
  | cons a rest =>
    have ha : a ≠ '-' := fun hh => h (by rw [List.head?_cons, hh])
    rw [List.dropWhile_cons]
    simp [ha]

theorem strip_subset (l : List Char) :
    ∀ c ∈ stripHyphens l, c ∈ l :=
  fun c hc => dw_subset l c (rstrip_subset _ c hc)

theorem strip_noDH (l : List Char) (h : noDH l) : noDH (stripHyphens l) :=
  rstrip_noDH _ (dw_noDH l h)

theorem strip_head_ne (l : List Char) :
    (stripHyphens l).head? ≠ some '-' := by
  by_cases hne : stripHyphens l = []
  · rw [hne]
    simp
  · rw [stripHyphens] at hne ⊢
    rw [rstrip_head _ hne]
    exact dw_head_ne l

theorem strip_getLast_ne (l : List Char) :
    (stripHyphens l).getLast? ≠ some '-' :=
  rstrip_getLast _

theorem strip_eq_self (l : List Char) (hh : l.head? ≠ some '-')
    (hl : l.getLast? ≠ some '-') : stripHyphens l = l := by
  rw [stripHyphens, dw_eq_self l hh]
  exact rstrip_eq_self l hl

theorem take_head (m : Nat) (l : List Char) (c : Char)
    (h : (l.take m).head? = some c) : l.head? = some c := by
  cases m with
  | zero => simp at h
  | succ m' =>
    cases l with
    | nil => simp at h
    | cons a rest => simpa using h

theorem trunc_subset (m : Nat) (l : List Char) :
    ∀ c ∈ truncateId m l, c ∈ l := by
  intro c hc
  rw [truncateId] at hc
  by_cases h : l.length > m
  · rw [if_pos h] at hc
    exact List.take_subset m l (rstrip_subset _ c hc)
  · rw [if_neg h] at hc
    exact hc

theorem trunc_noDH (m : Nat) (l : List Char) (h : noDH l) :
    noDH (truncateId m l) := by
  rw [truncateId]
  by_cases hl : l.length > m
  · rw [if_pos hl]
    exact rstrip_noDH _ (h.take m)
  · rw [if_neg hl]
    exact h

theorem trunc_head_ne (m : Nat) (l : List Char) (h : l.head? ≠ some '-') :
    (truncateId m l).head? ≠ some '-' := by
  rw [truncateId]
  by_cases hl : l.length > m
  · rw [if_pos hl]
    by_cases hne : rstripHyphen (l.take m) = []
    · rw [hne]
      simp
    · rw [rstrip_head _ hne]
      intro hc
      exact h (take_head m l '-' hc)
  · rw [if_neg hl]
    exact h

theorem trunc_getLast_ne (m : Nat) (l : List Char)
    (h : l.getLast? ≠ some '-') : (truncateId m l).getLast? ≠ some '-' := by
  rw [truncateId]
  by_cases hl : l.length > m
  · rw [if_pos hl]
    exact rstrip_getLast _
  · rw [if_neg hl]
    exact h

theorem normalizeStrip_eq_self (u : Uni) (l : List Char)
    (h : ∀ c ∈ l, u.nfd c = [c] ∧ u.isMn c = false) :
    normalizeStrip u l = l := by
  induction l with
  | nil => rfl
  | cons a rest ih =>
    have ha := h a (List.mem_cons_self _ _)
    rw [normalizeStrip, List.flatMap_cons, ha.1, List.filter_append]
    have hfa : List.filter (fun c => !(u.isMn c)) [a] = [a] := by
      simp [List.filter, ha.2]
    rw [hfa]
    have := ih (fun c hc => h c (List.mem_cons_of_mem _ hc))
    rw [normalizeStrip] at this
    rw [this]
    rfl

theorem lowerAll_eq_self (u : Uni) (l : List Char)
    (h : ∀ c ∈ l, u.lower c = c) : lowerAll u l = l := by
  rw [lowerAll]
  rw [List.map_congr_left h]
  exact List.map_id l

theorem noDH_fallback : noDH ("sanitized-id".toList) := by
  show List.Chain' _ ['s', 'a', 'n', 'i', 't', 'i', 'z', 'e', 'd', '-', 'i', 'd']
  simp [List.chain'_cons, List.chain'_singleton]

theorem sanitize_output_clean (u : Uni) (m : Nat) (x : List Char)
    (hx : x ≠ []) :
    CleanId (sanitizeL u m x) ∧ (sanitizeL u m x).length ≤ max m 12 := by
  rw [sanitizeL, if_neg hx]
  by_cases h6 : sanitizeCore u m x = []
  · rw [if_pos h6]
    exact ⟨⟨by decide, by decide, by decide, by decide, noDH_fallback⟩,
      le_max_right m 12⟩
  · rw [if_neg h6]
    have tame3 : ∀ c ∈ subSpecial (lowerAll u (normalizeStrip u x)), isIdChar c :=
      subSpecial_mem _
    have tame4 : ∀ c ∈ collapseHyphens (subSpecial (lowerAll u (normalizeStrip u x))),
        isIdChar c :=
      fun c hc => tame3 c (collapse_subset _ c hc)
    have tame5 : ∀ c ∈ stripHyphens (collapseHyphens (subSpecial
        (lowerAll u (normalizeStrip u x)))), isIdChar c :=
      fun c hc => tame4 c (strip_subset _ c hc)
    have noDH5 := strip_noDH _ (collapse_noDH (subSpecial (lowerAll u (normalizeStrip u x))))
    have head5 := strip_head_ne (collapseHyphens (subSpecial (lowerAll u (normalizeStrip u x))))
    have last5 := strip_getLast_ne (collapseHyphens (subSpecial (lowerAll u (normalizeStrip u x))))
    constructor
    · refine ⟨h6, ?_, ?_, ?_, ?_⟩
      · exact fun c hc => tame5 c (trunc_subset m _ c hc)
      · exact trunc_head_ne m _ head5
      · exact trunc_getLast_ne m _ last5
      · exact trunc_noDH m _ noDH5
    · rw [sanitizeCore, truncateId]
      by_cases hl : (stripHyphens (collapseHyphens (subSpecial
          (lowerAll u (normalizeStrip u x))))).length > m
      · rw [if_pos hl]
        refine le_trans (le_trans (rstrip_length_le _) ?_) (le_max_left m 12)
        rw [List.length_take]
        exact min_le_left _ _
      · rw [if_neg hl]
        exact le_trans (by omega) (le_max_left m 12)

theorem sanitize_fixes_clean (u : Uni) (m : Nat) (s : List Char)
    (hc : CleanId s) (hlen : s.length ≤ m) (hu : Uni.tame u) :
    sanitizeL u m s = s := by
  obtain ⟨hne, htame, hhead, hlast, hnd⟩ := hc
  have htame' : ∀ c ∈ s, u.nfd c = [c] ∧ u.isMn c = false :=
    fun c hcm => ⟨(hu c (htame c hcm)).1, (hu c (htame c hcm)).2.1⟩
  have hlower : ∀ c ∈ s, u.lower c = c :=
    fun c hcm => (hu c (htame c hcm)).2.2
  have hcore : sanitizeCore u m s = s := by
    rw [sanitizeCore, normalizeStrip_eq_self u s htame',
      lowerAll_eq_self u s hlower, subSpecial_eq_self s htame hnd,
      collapse_eq_self s hnd, strip_eq_self s hhead hlast, truncateId,
      if_neg (by omega)]
  rw [sanitizeL, if_neg hne, hcore, if_neg hne]

/-- C3 (amended): `IDSanitizer.sanitize` is idempotent for every non-empty
input and every maximum length of at least 12 (covering the default 50),
assuming the Unicode operations fix the output alphabet `[a-z0-9-]`; the
claim fails for empty input, where the first application yields
`"default_id"` whose underscore is rewritten on the second pass (see the
counterexample). -/
theorem c3_sanitize_idempotent (u : Uni) (m : Nat) (x : List Char)
    (hx : x ≠ []) (hm : 12 ≤ m) (hu : Uni.tame u) :
    sanitizeL u m (sanitizeL u m x) = sanitizeL u m x := by
  obtain ⟨hc, hlen⟩ := sanitize_output_clean u m x hx
  have hmax : max m 12 = m := Nat.max_eq_left hm
  exact sanitize_fixes_clean u m _ hc (le_trans hlen (le_of_eq hmax)) hu

theorem c3_witness :
    sanitizeL idUni 50 (sanitizeL idUni 50 "invoice payment!!".toList)
      = sanitizeL idUni 50 "invoice payment!!".toList :=
  c3_sanitize_idempotent idUni 50 "invoice payment!!".toList (by decide)
    (by omega) (fun c _ => ⟨rfl, rfl, rfl⟩)

/-- C3 counterexample: on the empty input string with the default maximum
length 50, `sanitize` returns `"default_id"`, but sanitizing that again
replaces the underscore and yields `"default-id"`, so
`sanitize(sanitize(x)) ≠ sanitize(x)` for `x = ""`. -/
theorem c3_counterexample :
    sanitizeL idUni 50 (sanitizeL idUni 50 []) ≠ sanitizeL idUni 50 [] := by
  decide

theorem reach_in_closed (g : Graph) (B : String → Prop)
    (hcl : ∀ a, B a → ∀ b, Edge g a b → B b) (y z : String)
    (h : Relation.ReflTransGen (Edge g) y z) (hy : B y) : B z := by
  induction h with
  | refl => exact hy
  | tail _ hedge ih => exact hcl _ ih _ hedge

theorem black_extend (g : Graph) (V1 S : List String) (n : String)
    (hinv : BlackInv g V1 (n :: S))
    (hadj : ∀ y ∈ adjOf g n, y ∈ V1 ∧ y ∉ n :: S)
    (hn : n ∈ V1) (hnS : n ∉ S) : BlackInv g V1 S := by
  obtain ⟨hcl, hnc⟩ := hinv
  have hmemS : ∀ x, x ∈ V1 → x ∉ S → x ≠ n → (x ∈ V1 ∧ x ∉ n :: S) := by
    intro x hx hxS hxn
    refine ⟨hx, fun hmem => ?_⟩
    rcases List.mem_cons.mp hmem with h | h
    · exact hxn h
    · exact hxS h
  constructor
  · intro x hx hxS y hy
    by_cases hxn : x = n
    · subst hxn
      have hy' := hadj y hy
      exact ⟨hy'.1, fun hyS => hy'.2 (List.mem_cons_of_mem _ hyS)⟩
    · have hx' := hmemS x hx hxS hxn
      have hy' := hcl x hx'.1 hx'.2 y hy
      exact ⟨hy'.1, fun hyS => hy'.2 (List.mem_cons_of_mem _ hyS)⟩
  · intro x hx hxS hcyc
    by_cases hxn : x = n
    · subst hxn
      obtain ⟨y, hxy, hyx⟩ := Relation.TransGen.head'_iff.mp hcyc
      have hyB : y ∈ V1 ∧ y ∉ x :: S := hadj y hxy
      have hxB : x ∈ V1 ∧ x ∉ x :: S :=
        reach_in_closed g (fun a => a ∈ V1 ∧ a ∉ x :: S)
          (fun a ha b hb => hcl a ha.1 ha.2 b hb) y x hyx hyB
      exact hxB.2 (List.mem_cons_self _ _)
    · exact hnc x hx (hmemS x hx hxS hxn).2 hcyc

theorem dfsList_false_inv (g : Graph) :
    ∀ (fuel : Nat) (ns V S V2 : List String),
      dfsList g fuel ns V S = (V2, false) →
      BlackInv g V S → (∀ s ∈ S, s ∈ V) →
      (∀ v ∈ V, v ∈ V2) ∧ (∀ n ∈ ns, n ∈ V2 ∧ n ∉ S) ∧ BlackInv g V2 S := by
  intro fuel
  induction fuel with
  | zero =>
    intro ns V S V2 h
    rw [dfsList] at h
    simp at h
  | succ f ih =>
    intro ns V S V2 h hinv hS
    cases ns with
    | nil =>
      rw [dfsList] at h
      obtain ⟨rfl, -⟩ := Prod.mk.injEq .. ▸ h
      exact ⟨fun v hv => hv, fun n hn => absurd hn (List.not_mem_nil n), hinv⟩
    | cons n rest =>
      rw [dfsList] at h
      by_cases hnV : n ∈ V
      · rw [if_pos hnV] at h
        by_cases hnS : n ∈ S
        · rw [if_pos hnS] at h
          simp at h
        · rw [if_neg hnS] at h
          obtain ⟨hsub, hns, hinv2⟩ := ih rest V S V2 h hinv hS
          refine ⟨hsub, ?_, hinv2⟩
          intro x hx
          rcases List.mem_cons.mp hx with rfl | hx'
          · exact ⟨hsub x hnV, hnS⟩
          · exact hns x hx'
      · rw [if_neg hnV] at h
        have hnS : n ∉ S := fun hmem => hnV (hS n hmem)
        cases hrec : dfsList g f (adjOf g n) (n :: V) (n :: S) with
        | mk V1 b =>
          cases b with
          | true =>
            rw [hrec] at h
            simp at h
          | false =>
            rw [hrec] at h
            have hinv1 : BlackInv g (n :: V) (n :: S) := by
              obtain ⟨hcl, hnc⟩ := hinv
              have hmem : ∀ x, x ∈ n :: V → x ∉ n :: S → (x ∈ V ∧ x ∉ S) := by
                intro x hx hxS
                rcases List.mem_cons.mp hx with rfl | h'
                · exact absurd (List.mem_cons_self x S) hxS
                · exact ⟨h', fun h2 => hxS (List.mem_cons_of_mem _ h2)⟩
              constructor
              · intro x hx hxS y hy
                obtain ⟨hxV, hxS'⟩ := hmem x hx hxS
                have hy' := hcl x hxV hxS' y hy
                refine ⟨List.mem_cons_of_mem _ hy'.1, ?_⟩
                intro h2
                rcases List.mem_cons.mp h2 with rfl | h3
                · exact hnV hy'.1
                · exact hy'.2 h3
              · intro x hx hxS hcyc
                obtain ⟨hxV, hxS'⟩ := hmem x hx hxS
                exact hnc x hxV hxS' hcyc
            have hS1 : ∀ s ∈ n :: S, s ∈ n :: V := by
              intro s hs
              rcases List.mem_cons.mp hs with rfl | h'
              · exact List.mem_cons_self _ _
              · exact List.mem_cons_of_mem _ (hS s h')
            obtain ⟨hsub1, hadj1, hinv2⟩ :=
              ih (adjOf g n) (n :: V) (n :: S) V1 hrec hinv1 hS1
            have hnV1 : n ∈ V1 := hsub1 n (List.mem_cons_self _ _)
            have hinv3 : BlackInv g V1 S :=
              black_extend g V1 S n hinv2 hadj1 hnV1 hnS
            have hS2 : ∀ s ∈ S, s ∈ V1 :=
              fun s hs => hsub1 s (List.mem_cons_of_mem _ (hS s hs))
            obtain ⟨hsub2, hns2, hinv4⟩ := ih rest V1 S V2 h hinv3 hS2
            refine ⟨fun v hv => hsub2 v (hsub1 v (List.mem_cons_of_mem _ hv)),
              ?_, hinv4⟩
            intro x hx
            rcases List.mem_cons.mp hx with rfl | hx'
            · exact ⟨hsub2 x hnV1, hnS⟩
            · exact hns2 x hx'

theorem hasCyclesAux_false_acyclic (g : Graph) :
    ∀ (fuel : Nat) (keys V : List String),
      hasCyclesAux g fuel keys V = false →
      BlackInv g V [] →
      ∀ k ∈ keys, ¬ Relation.TransGen (Edge g) k k := by
  intro fuel
  induction fuel with
  | zero =>
    intro keys V h
    rw [hasCyclesAux] at h
    simp at h
  | succ f ih =>
    intro keys V h hinv
    cases keys with
    | nil =>
      intro k hk
      exact absurd hk (List.not_mem_nil k)
    | cons k ks =>
      rw [hasCyclesAux] at h
      by_cases hkV : k ∈ V
      · rw [if_pos hkV] at h
        intro x hx
        rcases List.mem_cons.mp hx with rfl | hx'
        · exact hinv.2 x hkV (List.not_mem_nil x)
        · exact ih ks V h hinv x hx'
      · rw [if_neg hkV] at h
        cases hrec : dfsList g f (adjOf g k) (k :: V) [k] with
        | mk V1 b =>
          cases b with
          | true =>
            rw [hrec] at h
            simp at h
          | false =>
            rw [hrec] at h
            have hinv1 : BlackInv g (k :: V) [k] := by
              obtain ⟨hcl, hnc⟩ := hinv
              have hmem : ∀ x, x ∈ k :: V → x ∉ [k] → x ∈ V := by
                intro x hx hxk
                rcases List.mem_cons.mp hx with rfl | h'
                · exact absurd (List.mem_singleton.mpr rfl) hxk
                · exact h'
              constructor
              · intro x hx hxk y hy
                have hxV := hmem x hx hxk
                have hy' := hcl x hxV (List.not_mem_nil x) y hy
                refine ⟨List.mem_cons_of_mem _ hy'.1, ?_⟩
                intro h2
                rcases List.mem_singleton.mp h2 with rfl
                exact hkV hy'.1
              · intro x hx hxk hcyc
                exact hnc x (hmem x hx hxk) (List.not_mem_nil x) hcyc
            have hS1 : ∀ s ∈ ([k] : List String), s ∈ k :: V := by
              intro s hs
              rcases List.mem_singleton.mp hs with rfl
              exact List.mem_cons_self _ _
            obtain ⟨hsub1, hadj1, hinv2⟩ :=
              dfsList_false_inv g f (adjOf g k) (k :: V) [k] V1 hrec hinv1 hS1
            have hkV1 : k ∈ V1 := hsub1 k (List.mem_cons_self _ _)
            have hinv3 : BlackInv g V1 [] :=
              black_extend g V1 [] k hinv2 hadj1 hkV1 (List.not_mem_nil k)
            intro x hx
            rcases List.mem_cons.mp hx with rfl | hx'
            · exact hinv3.2 x hkV1 (List.not_mem_nil x)
            · exact ih ks V1 h hinv3 x hx'

theorem edge_source_mem_keys (g : Graph) (a b : String) (h : Edge g a b) :
    a ∈ g.map Prod.fst := by
  rw [Edge, adjOf] at h
  cases hl : List.lookup a g with
  | none =>
    rw [hl] at h
    exact absurd h (List.not_mem_nil b)
  | some l =>
    exact List.mem_map.mpr ⟨(a, l), lookup_mem a l g hl, rfl⟩

theorem has_cycles_complete (g : Graph) (h : HasCycleProp g) :
    has_cycles g = true := by
  obtain ⟨x, hcyc⟩ := h
  cases hb : has_cycles g with
  | true => rfl
  | false =>
    exfalso
    obtain ⟨y, hxy, -⟩ := Relation.TransGen.head'_iff.mp hcyc
    have hx : x ∈ g.map Prod.fst := edge_source_mem_keys g x y hxy
    rw [has_cycles] at hb
    have hempty : BlackInv g [] [] :=
      ⟨fun z hz => absurd hz (List.not_mem_nil z),
       fun z hz => absurd hz (List.not_mem_nil z)⟩
    exact hasCyclesAux_false_acyclic g (graphFuel g) (g.map Prod.fst) [] hb
      hempty x hx hcyc

/-- C8: on every dependency graph that contains a cycle (some node reaches
itself through the edge relation), `topological_sort` raises the
`ValueError` of its defensive cycle re-check instead of returning an
ordering. -/
theorem c8_topological_sort_raises_on_cycle (g : Graph) (h : HasCycleProp g) :
    topological_sort g
      = Except.error "Cannot perform topological sort on graph with cycles" := by
  rw [topological_sort, if_pos (has_cycles_complete g h)]

theorem c8_witness :
    topological_sort [("a", ["a"])]
      = Except.error "Cannot perform topological sort on graph with cycles" :=
  c8_topological_sort_raises_on_cycle [("a", ["a"])]
    ⟨"a", Relation.TransGen.single (show "a" ∈ adjOf [("a", ["a"])] "a" by decide)⟩
